import Mathlib

/-!
Verification of the capability / identity core of the runsc sandbox
(specutils capability parsing, control/proc process listing, and the
auth identity-map contract).

Conventions of the embedding:
* Go machine integers are modelled as `Int` with explicit two's-complement
  wrapping (`wrap64`, `wrap32`) where overflow is possible, and as `Nat`
  where the Go code only manipulates non-negative in-range values.
* Go's multiple return values `(T, error)` are modelled as pairs whose
  second component is `Option String` (`none` = nil error).
* Strings are manipulated through `String.toList` / `String.mk` so that
  every definition evaluates by kernel reduction.
-/

set_option maxRecDepth 4000

/-- A Linux capability, modelled by its numeric ordinal.
Modelled from the spec: "an enumerated value (ordinal 0..N-1, N ≈ 38) with a
canonical external name"; the ordinals are the `linux.CAP_*` constants of
`pkg/abi/linux` (not in src), which follow the Linux ABI numbering. -/
abbrev Capability := Nat

/-- A set of capabilities.
Modelled from the spec: "a fixed-width bitmask indexed by Capability ordinal"
(`auth.CapabilitySet`, a `uint64`, not in src).  All ordinals are below 38,
so the `uint64` mask arithmetic never wraps and `Nat` is exact. -/
abbrev CapabilitySet := Nat

/-- The empty capability set (the zero value of `auth.CapabilitySet`). -/
def CapabilitySet.empty : CapabilitySet := 0

/-- Union of two capability sets (bitwise or).
Modelled from the spec: "supports membership test, union, intersection". -/
def CapabilitySet.union (x y : CapabilitySet) : CapabilitySet := x ||| y

/-- Intersection of two capability sets (bitwise and).
Modelled from the spec: "supports membership test, union, intersection". -/
def CapabilitySet.intersect (x y : CapabilitySet) : CapabilitySet := x &&& y

/-- Membership test: is capability `c` in the set?
Modelled from the spec: "a fixed-width bitmask indexed by Capability ordinal". -/
def CapabilitySet.contains (s : CapabilitySet) (c : Capability) : Bool := Nat.testBit s c

/-- Builds a `CapabilitySet` from a list of capabilities by or-ing the bit of
each listed capability.  Modelled from the spec: "Created empty or from a list
of Capabilities" (`auth.CapabilitySetOfMany`, not in src). -/
def CapabilitySetOfMany (caps : List Capability) : CapabilitySet :=
  caps.foldl (fun s c => s ||| (1 <<< c)) 0

/-- The static capability table `capFromName` of specutils, entry for entry in
source order; the `linux.CAP_*` ordinals are the Linux ABI values. -/
def capTable : List (String × Capability) :=
  [("CAP_CHOWN", 0),
   ("CAP_DAC_OVERRIDE", 1),
   ("CAP_DAC_READ_SEARCH", 2),
   ("CAP_FOWNER", 3),
   ("CAP_FSETID", 4),
   ("CAP_KILL", 5),
   ("CAP_SETGID", 6),
   ("CAP_SETUID", 7),
   ("CAP_SETPCAP", 8),
   ("CAP_LINUX_IMMUTABLE", 9),
   ("CAP_NET_BIND_SERVICE", 10),
   ("CAP_NET_BROADCAST", 11),
   ("CAP_NET_ADMIN", 12),
   ("CAP_NET_RAW", 13),
   ("CAP_IPC_LOCK", 14),
   ("CAP_IPC_OWNER", 15),
   ("CAP_SYS_MODULE", 16),
   ("CAP_SYS_RAWIO", 17),
   ("CAP_SYS_CHROOT", 18),
   ("CAP_SYS_PTRACE", 19),
   ("CAP_SYS_PACCT", 20),
   ("CAP_SYS_ADMIN", 21),
   ("CAP_SYS_BOOT", 22),
   ("CAP_SYS_NICE", 23),
   ("CAP_SYS_RESOURCE", 24),
   ("CAP_SYS_TIME", 25),
   ("CAP_SYS_TTY_CONFIG", 26),
   ("CAP_MKNOD", 27),
   ("CAP_LEASE", 28),
   ("CAP_AUDIT_WRITE", 29),
   ("CAP_AUDIT_CONTROL", 30),
   ("CAP_SETFCAP", 31),
   ("CAP_MAC_OVERRIDE", 32),
   ("CAP_MAC_ADMIN", 33),
   ("CAP_SYSLOG", 34),
   ("CAP_WAKE_ALARM", 35),
   ("CAP_BLOCK_SUSPEND", 36),
   ("CAP_AUDIT_READ", 37)]

/-- Lookup in the static table; the Go map access `capFromName[n]` with its
`ok` flag becomes an `Option`. -/
def capFromName (n : String) : Option Capability := List.lookup n capTable

/-- The error message produced by `capsFromNames` for an unknown name
(`fmt.Errorf("unknown capability %q", n)`). -/
def unknownCapMsg (n : String) : String := "unknown capability \"" ++ n ++ "\""

/-- The loop of `capsFromNames`: walks the names, accumulating capabilities;
the first unknown name aborts with `(0, error)` exactly as the Go loop
returns `0, fmt.Errorf(...)`. -/
def capsFromNamesGo : List String → List Capability → CapabilitySet × Option String
  | [], caps => (CapabilitySetOfMany caps, none)
  | n :: rest, caps =>
    match capFromName n with
    | none => (0, some (unknownCapMsg n))
    | some c => capsFromNamesGo rest (caps ++ [c])

/-- `capsFromNames` of specutils: parses a list of capability names into a
`CapabilitySet`, or fails on the first unknown name. -/
def capsFromNames (names : List String) : CapabilitySet × Option String :=
  capsFromNamesGo names []

/-- The capability block of an OCI runtime spec (`specs.LinuxCapabilities`):
four named lists of capability name strings (plus Ambient, which the code
does not read). -/
structure LinuxCapabilities where
  Bounding : List String
  Effective : List String
  Inheritable : List String
  Permitted : List String
  Ambient : List String

/-- The four capability sets of a task (`auth.TaskCapabilities`, not in src).
Modelled from the spec: "four CapabilitySet values — Bounding, Effective,
Permitted, Inheritable". -/
structure TaskCapabilities where
  BoundingCaps : CapabilitySet
  EffectiveCaps : CapabilitySet
  PermittedCaps : CapabilitySet
  InheritableCaps : CapabilitySet

/-- `specutils.Capabilities`: builds a `TaskCapabilities` from an optional
capability block.  A nil block (`none`) yields the zero value of
`auth.TaskCapabilities` (all four sets empty); otherwise the four lists are
parsed in source order (Bounding, Effective, Inheritable, Permitted) and the
first parse error is returned together with a nil result. -/
def Capabilities (specCaps : Option LinuxCapabilities) :
    Option TaskCapabilities × Option String :=
  match specCaps with
  | none =>
    (some { BoundingCaps := CapabilitySet.empty, EffectiveCaps := CapabilitySet.empty,
            PermittedCaps := CapabilitySet.empty, InheritableCaps := CapabilitySet.empty },
     none)
  | some sc =>
    match capsFromNames sc.Bounding with
    | (_, some e) => (none, some e)
    | (b, none) =>
      match capsFromNames sc.Effective with
      | (_, some e) => (none, some e)
      | (eff, none) =>
        match capsFromNames sc.Inheritable with
        | (_, some e) => (none, some e)
        | (inh, none) =>
          match capsFromNames sc.Permitted with
          | (_, some e) => (none, some e)
          | (perm, none) =>
            (some { BoundingCaps := b, EffectiveCaps := eff,
                    PermittedCaps := perm, InheritableCaps := inh },
             none)

/-- The first name of the list that the static table does not know, if any. -/
def firstUnknown (names : List String) : Option String :=
  names.find? (fun n => (capFromName n).isNone)

/-- First-of-two options, used to state in which order `Capabilities`
reports errors. -/
def firstSome (a b : Option String) : Option String :=
  match a with
  | some x => some x
  | none => b

namespace auth

/-- One mapping of an identifier range, as configured by an OCI
`(container_id, host_id, length)` triple.
Modelled from the spec: "IdentityMap: an ordered set of non-overlapping
(IdentityRange local, IdentityRange parent) pairs" (`auth.IdMapEntry` of
`pkg/sentry/kernel/auth`, not in src).  `NumericID`s are `uint32`; all range
arithmetic stays within `uint32` for valid maps, so `Nat` is exact. -/
structure IdMapEntry where
  FirstID : Nat
  FirstParentID : Nat
  Length : Nat

/-- An identity map: the list of configured range pairs, kept sorted by
local-range start.  Modelled from the spec: a sorted-list point lookup is one
of the admissible structures ("sorted array + binary search ... satisfies the
contract"). -/
abbrev IdentityMap := List IdMapEntry

/-- Modelled from the spec: "translate(map, local_id) -> (parent_id, found)";
finds the range whose local interval contains `id` and maps it by offset,
or reports `found = false`. -/
def translate (m : IdentityMap) (id : Nat) : Nat × Bool :=
  match m.find? (fun e => decide (e.FirstID ≤ id ∧ id < e.FirstID + e.Length)) with
  | some e => (e.FirstParentID + (id - e.FirstID), true)
  | none => (0, false)

/-- Modelled from the spec: "reverse_translate(map, parent_id) ->
(local_id, found)"; the mirror image of `translate` on the parent side. -/
def reverse_translate (m : IdentityMap) (pid : Nat) : Nat × Bool :=
  match m.find? (fun e => decide (e.FirstParentID ≤ pid ∧ pid < e.FirstParentID + e.Length)) with
  | some e => (e.FirstID + (pid - e.FirstParentID), true)
  | none => (0, false)

/-- Do the two half-open intervals `[s1, s1+l1)` and `[s2, s2+l2)` meet? -/
def rangesOverlap (s1 l1 s2 l2 : Nat) : Bool :=
  decide (s1 < s2 + l2 ∧ s2 < s1 + l1)

/-- Two entries are compatible when neither their local nor their parent
ranges overlap. -/
def entryOk (a b : IdMapEntry) : Bool :=
  !(rangesOverlap a.FirstID a.Length b.FirstID b.Length) &&
  !(rangesOverlap a.FirstParentID a.Length b.FirstParentID b.Length)

/-- Every unordered pair of entries is compatible. -/
def pairwiseOk : List IdMapEntry → Bool
  | [] => true
  | e :: es => es.all (entryOk e) && pairwiseOk es

/-- Insertion step of the sort by local-range start. -/
def insertByFirst (e : IdMapEntry) : List IdMapEntry → List IdMapEntry
  | [] => [e]
  | x :: xs => if e.FirstID ≤ x.FirstID then e :: x :: xs else x :: insertByFirst e xs

/-- Sorts entries by local-range start. -/
def sortByFirst (l : List IdMapEntry) : IdentityMap := l.foldr insertByFirst []

/-- Modelled from the spec: "build(ranges) -> IdentityMap or
Error(OverlappingRange) ... the builder sorts and validates this and fails
if any local-range or parent-range interval overlaps another." -/
def build (rs : List IdMapEntry) : Except String IdentityMap :=
  if pairwiseOk rs then .ok (sortByFirst rs) else .error "OverlappingRange"

end auth

/-- Two's-complement wrap of an `Int` into the `int64` range, the semantics
of overflowing `int64` arithmetic in Go. -/
def wrap64 (x : Int) : Int := (x + 2 ^ 63) % 2 ^ 64 - 2 ^ 63

/-- Two's-complement wrap of an `Int` into the `int32` range, the semantics
of Go's `int32(...)` conversion. -/
def wrap32 (x : Int) : Int := (x + 2 ^ 31) % 2 ^ 32 - 2 ^ 31

/-- The two fields of `usage.CPUStats` read by `percentCPU`; both are Go
`time.Duration` values, i.e. `int64` nanosecond counts. -/
structure CPUStats where
  UserTime : Int
  SysTime : Int

/-- `ktime.Time.Sub`: the `int64` nanosecond difference of two times
(`pkg/sentry/kernel/time`, not in src; a time is an `int64` nanosecond
count and `Sub` is its wrapped difference). -/
def timeSub (now startTime : Int) : Int := wrap64 (now - startTime)

/-- `percentCPU` of control/proc.go with Go `int64` semantics: `total` and
the products wrap as `int64`, the quotient truncates toward zero (Go `/`),
and the final conversion truncates to `int32`. -/
def percentCPU (stats : CPUStats) (startTime now : Int) : Int :=
  let total := wrap64 (stats.UserTime + stats.SysTime)
  let lifetime := timeSub now startTime
  if lifetime ≤ 0 then 0
  else
    let pct := wrap64 (Int.tdiv (wrap64 (total * 100)) lifetime)
    let pct := if pct > 99 then 99 else pct
    wrap32 pct

/-- Splits a character list on a separator; mirrors Go `strings.Split`
(so the result is never empty, and `[] ↦ [[]]`). -/
def chSplit (sep : Char) : List Char → List (List Char)
  | [] => [[]]
  | c :: cs =>
    let r := chSplit sep cs
    if c = sep then [] :: r
    else
      match r with
      | h :: t => (c :: h) :: t
      | [] => [[c]]

/-- The element processing of Go `path/filepath.Clean` (unix rules), as a
stack machine over the slash-separated elements: `""` and `"."` vanish,
`".."` pops a normal element, accumulates after a leading `".."`, and is
dropped at the root.  `acc` holds the kept elements in reverse. -/
def cleanAux (rooted : Bool) : List (List Char) → List (List Char) → List (List Char)
  | [], acc => acc
  | e :: es, acc =>
    if e = [] ∨ e = ['.'] then cleanAux rooted es acc
    else if e = ['.', '.'] then
      match acc with
      | [] => if rooted then cleanAux rooted es [] else cleanAux rooted es [['.', '.']]
      | t :: ts =>
        if t = ['.', '.'] then cleanAux rooted es (['.', '.'] :: t :: ts)
        else cleanAux rooted es ts
    else cleanAux rooted es (e :: acc)

/-- Go `path/filepath.Clean` on a character list: shortest equivalent path —
collapses repeated slashes, removes `.` and resolvable `..` elements, keeps
rootedness, yields `"."` for an empty result. -/
def cleanChars (p : List Char) : List Char :=
  match p with
  | [] => ['.']
  | c :: _ =>
    let rooted := c = '/'
    let elems := (cleanAux rooted (chSplit '/' p) []).reverse
    let out := List.intercalate ['/'] elems
    if rooted then '/' :: out
    else if out = [] then ['.'] else out

/-- Go `path/filepath.Clean` on strings. -/
def Clean (s : String) : String := String.mk (cleanChars s.toList)

/-- Go `path/filepath.Join` on character lists: joins from the first
non-empty element with slashes and cleans the result; all-empty input gives
the empty path. -/
def JoinCh (elems : List (List Char)) : List Char :=
  match elems.dropWhile List.isEmpty with
  | [] => []
  | rest => cleanChars (List.intercalate ['/'] rest)

/-- Go `path/filepath.Join` on strings. -/
def Join (elems : List String) : String :=
  String.mk (JoinCh (elems.map String.toList))

/-- The PATH list extracted by `GetExecutablePath`: the first environment
entry with the `PATH=` prefix, with that prefix removed and split on `':'`;
no such entry means no search directories. -/
def pathFromEnv (env : List String) : List (List Char) :=
  match env.find? (fun e => List.isPrefixOf "PATH=".toList e.toList) with
  | some e => chSplit ':' (e.toList.drop 5)
  | none => []

/-- `specutils.GetExecutablePath`: cleans the name; a name with a `'/'` is
returned as cleaned; otherwise the PATH directories are searched in order
for the first directory whose joined candidate exists (`os.Stat` is the
oracle `stat`), and a miss everywhere returns the cleaned name.  The error
result is the second component (`none` = nil). -/
def GetExecutablePath (exec root : String) (env : List String)
    (stat : String → Bool) : String × Option String :=
  let ex := cleanChars exec.toList
  if ex.contains '/' then (String.mk ex, none)
  else
    match (pathFromEnv env).find?
        (fun p => stat (String.mk (JoinCh [root.toList, p, ex]))) with
    | some p => (String.mk (JoinCh (['/'] :: p :: [ex])), none)
    | none => (String.mk ex, none)

/-! ### Helper lemmas -/

theorem mem_of_lookup {l : List (String × Capability)} {n : String} {c : Capability}
    (h : List.lookup n l = some c) : (n, c) ∈ l := by
  induction l with
  | nil => simp [List.lookup] at h
  | cons p rest ih =>
    obtain ⟨k, v⟩ := p
    rw [List.lookup] at h
    cases hk : (n == k) with
    | true =>
      rw [hk] at h
      have hn : n = k := eq_of_beq hk
      have hv : v = c := by simpa using h
      rw [hn, hv]
      exact List.mem_cons_self _ _
    | false =>
      rw [hk] at h
      exact List.mem_cons_of_mem _ (ih h)

theorem capsFromNamesGo_err (names : List String) (n : String) :
    ∀ acc, firstUnknown names = some n →
      capsFromNamesGo names acc = (0, some (unknownCapMsg n)) := by
  induction names with
  | nil => intro acc h; simp [firstUnknown] at h
  | cons m rest ih =>
    intro acc h
    rw [firstUnknown, List.find?_cons] at h
    cases hc : capFromName m with
    | none =>
      rw [hc] at h
      simp at h
      rw [capsFromNamesGo, hc, h]
    | some c =>
      rw [hc] at h
      simp at h
      rw [capsFromNamesGo, hc]
      exact ih _ h

theorem capsFromNamesGo_ok (names : List String) :
    ∀ acc, firstUnknown names = none →
      capsFromNamesGo names acc =
        (CapabilitySetOfMany (acc ++ names.filterMap capFromName), none) := by
  induction names with
  | nil => intro acc h; simp [capsFromNamesGo]
  | cons m rest ih =>
    intro acc h
    rw [firstUnknown, List.find?_cons] at h
    cases hc : capFromName m with
    | none => rw [hc] at h; simp at h
    | some c =>
      rw [hc] at h
      simp at h
      have h' : firstUnknown rest = none := by
        rw [firstUnknown, List.find?_eq_none]
        intro x hx
        simpa [Option.isNone_iff_eq_none] using h x hx
      simp only [capsFromNamesGo, hc, ih _ h', List.filterMap_cons]
      rw [List.append_assoc]
      rfl

theorem capsFromNames_err {names : List String} {n : String}
    (h : firstUnknown names = some n) :
    capsFromNames names = (0, some (unknownCapMsg n)) :=
  capsFromNamesGo_err names n [] h

theorem capsFromNames_ok {names : List String} (h : firstUnknown names = none) :
    capsFromNames names = (CapabilitySetOfMany (names.filterMap capFromName), none) := by
  have := capsFromNamesGo_ok names [] h
  simpa using this

theorem testBit_foldl (caps : List Capability) :
    ∀ (init b : Nat),
      Nat.testBit (caps.foldl (fun s c => s ||| (1 <<< c)) init) b =
        (Nat.testBit init b || caps.contains b) := by
  induction caps with
  | nil => intro init b; simp
  | cons c rest ih =>
    intro init b
    rw [List.foldl_cons, ih, Nat.testBit_lor]
    have hbit : Nat.testBit (1 <<< c) b = (b == c) := by
      rw [Nat.shiftLeft_eq, one_mul, Nat.testBit_two_pow]
      rcases eq_or_ne c b with hcb | hcb
      · simp [hcb]
      · simp [hcb, Ne.symm hcb]
    rw [hbit, List.contains_cons, Bool.or_assoc]

theorem testBit_ofMany (caps : List Capability) (b : Nat) :
    Nat.testBit (CapabilitySetOfMany caps) b = caps.contains b := by
  rw [CapabilitySetOfMany, testBit_foldl]
  simp

theorem firstUnknown_eq_none_iff (l : List String) :
    firstUnknown l = none ↔ ∀ n ∈ l, (capFromName n).isSome := by
  rw [firstUnknown, List.find?_eq_none]
  constructor
  · intro h n hn
    have := h n hn
    cases hc : capFromName n with
    | none => rw [hc] at this; simp at this
    | some c => rfl
  · intro h n hn
    have := h n hn
    cases hc : capFromName n with
    | none => rw [hc] at this; simp at this
    | some c => simp

theorem firstSome_eq_none_iff (a b : Option String) :
    firstSome a b = none ↔ a = none ∧ b = none := by
  cases a <;> simp [firstSome]

theorem capabilities_shape (sc : LinuxCapabilities) :
    (Capabilities (some sc)).2 =
      Option.map unknownCapMsg
        (firstSome (firstUnknown sc.Bounding)
          (firstSome (firstUnknown sc.Effective)
            (firstSome (firstUnknown sc.Inheritable) (firstUnknown sc.Permitted)))) ∧
    ((Capabilities (some sc)).1 = none ↔ (Capabilities (some sc)).2 ≠ none) := by
  cases hB : firstUnknown sc.Bounding with
  | some n =>
    simp only [Capabilities, capsFromNames_err hB, firstSome]
    simp
  | none =>
    cases hE : firstUnknown sc.Effective with
    | some n =>
      simp only [Capabilities, capsFromNames_ok hB, capsFromNames_err hE, firstSome]
      simp
    | none =>
      cases hI : firstUnknown sc.Inheritable with
      | some n =>
        simp only [Capabilities, capsFromNames_ok hB, capsFromNames_ok hE,
          capsFromNames_err hI, firstSome]
        simp
      | none =>
        cases hP : firstUnknown sc.Permitted with
        | some n =>
          simp only [Capabilities, capsFromNames_ok hB, capsFromNames_ok hE,
            capsFromNames_ok hI, capsFromNames_err hP, firstSome]
          simp
        | none =>
          simp only [Capabilities, capsFromNames_ok hB, capsFromNames_ok hE,
            capsFromNames_ok hI, capsFromNames_ok hP, firstSome]
          simp

theorem auth.translate_reverse (m : auth.IdentityMap)
    (hP : ∀ a ∈ m, ∀ b ∈ m, ∀ x : Nat,
      a.FirstParentID ≤ x → x < a.FirstParentID + a.Length →
      b.FirstParentID ≤ x → x < b.FirstParentID + b.Length → a = b) :
    ∀ id p, auth.translate m id = (p, true) →
      auth.reverse_translate m p = (id, true) := by
  intro id p h
  rw [auth.translate] at h
  cases hf : m.find? (fun e => decide (e.FirstID ≤ id ∧ id < e.FirstID + e.Length)) with
  | none => rw [hf] at h; simp at h
  | some e =>
    rw [hf] at h
    simp only [Prod.mk.injEq] at h
    obtain ⟨hp, -⟩ := h
    have hpred := List.find?_some hf
    simp only [decide_eq_true_eq] at hpred
    obtain ⟨h1, h2⟩ := hpred
    have hme : e ∈ m := List.mem_of_find?_eq_some hf
    subst hp
    rw [auth.reverse_translate]
    have hin : e.FirstParentID ≤ e.FirstParentID + (id - e.FirstID) ∧
        e.FirstParentID + (id - e.FirstID) < e.FirstParentID + e.Length := by omega
    have hsome : (m.find? (fun e2 => decide (e2.FirstParentID ≤ e.FirstParentID + (id - e.FirstID) ∧
        e.FirstParentID + (id - e.FirstID) < e2.FirstParentID + e2.Length))).isSome := by
      rw [List.find?_isSome]
      exact ⟨e, hme, decide_eq_true hin⟩
    obtain ⟨e2, hf2⟩ := Option.isSome_iff_exists.mp hsome
    rw [hf2]
    have hm2 : e2 ∈ m := List.mem_of_find?_eq_some hf2
    have hpred2 := List.find?_some hf2
    simp only [decide_eq_true_eq] at hpred2
    obtain ⟨g1, g2⟩ := hpred2
    have he2 : e2 = e := hP e2 hm2 e hme (e.FirstParentID + (id - e.FirstID)) g1 g2 hin.1 hin.2
    subst he2
    simp only [Prod.mk.injEq]
    exact ⟨by omega, trivial⟩

theorem auth.reverse_translate_translate (m : auth.IdentityMap)
    (hL : ∀ a ∈ m, ∀ b ∈ m, ∀ x : Nat,
      a.FirstID ≤ x → x < a.FirstID + a.Length →
      b.FirstID ≤ x → x < b.FirstID + b.Length → a = b) :
    ∀ p id, auth.reverse_translate m p = (id, true) →
      auth.translate m id = (p, true) := by
  intro p id h
  rw [auth.reverse_translate] at h
  cases hf : m.find? (fun e => decide (e.FirstParentID ≤ p ∧ p < e.FirstParentID + e.Length)) with
  | none => rw [hf] at h; simp at h
  | some e =>
    rw [hf] at h
    simp only [Prod.mk.injEq] at h
    obtain ⟨hp, -⟩ := h
    have hpred := List.find?_some hf
    simp only [decide_eq_true_eq] at hpred
    obtain ⟨h1, h2⟩ := hpred
    have hme : e ∈ m := List.mem_of_find?_eq_some hf
    subst hp
    rw [auth.translate]
    have hin : e.FirstID ≤ e.FirstID + (p - e.FirstParentID) ∧
        e.FirstID + (p - e.FirstParentID) < e.FirstID + e.Length := by omega
    have hsome : (m.find? (fun e2 => decide (e2.FirstID ≤ e.FirstID + (p - e.FirstParentID) ∧
        e.FirstID + (p - e.FirstParentID) < e2.FirstID + e2.Length))).isSome := by
      rw [List.find?_isSome]
      exact ⟨e, hme, decide_eq_true hin⟩
    obtain ⟨e2, hf2⟩ := Option.isSome_iff_exists.mp hsome
    rw [hf2]
    have hm2 : e2 ∈ m := List.mem_of_find?_eq_some hf2
    have hpred2 := List.find?_some hf2
    simp only [decide_eq_true_eq] at hpred2
    obtain ⟨g1, g2⟩ := hpred2
    have he2 : e2 = e := hL e2 hm2 e hme (e.FirstID + (p - e.FirstParentID)) g1 g2 hin.1 hin.2
    subst he2
    simp only [Prod.mk.injEq]
    exact ⟨by omega, trivial⟩

theorem wrap64_eq_self {x : Int} (h1 : -(2 ^ 63) ≤ x) (h2 : x < 2 ^ 63) :
    wrap64 x = x := by
  have e63 : (2 : Int) ^ 63 = 9223372036854775808 := by norm_num
  have e64 : (2 : Int) ^ 64 = 18446744073709551616 := by norm_num
  rw [wrap64, Int.emod_eq_of_lt (by omega) (by omega)]
  omega

theorem wrap64_lb (x : Int) : -(2 ^ 63) ≤ wrap64 x := by
  have e63 : (2 : Int) ^ 63 = 9223372036854775808 := by norm_num
  have e64 : (2 : Int) ^ 64 = 18446744073709551616 := by norm_num
  have := Int.emod_nonneg (x + 2 ^ 63) (show (2 : Int) ^ 64 ≠ 0 by norm_num)
  rw [wrap64]
  omega

theorem wrap64_ub (x : Int) : wrap64 x < 2 ^ 63 := by
  have e63 : (2 : Int) ^ 63 = 9223372036854775808 := by norm_num
  have e64 : (2 : Int) ^ 64 = 18446744073709551616 := by norm_num
  have := Int.emod_lt_of_pos (x + 2 ^ 63) (show (0 : Int) < 2 ^ 64 by norm_num)
  rw [wrap64]
  omega

theorem wrap32_eq_self {x : Int} (h1 : -(2 ^ 31) ≤ x) (h2 : x < 2 ^ 31) :
    wrap32 x = x := by
  have e31 : (2 : Int) ^ 31 = 2147483648 := by norm_num
  have e32 : (2 : Int) ^ 32 = 4294967296 := by norm_num
  rw [wrap32, Int.emod_eq_of_lt (by omega) (by omega)]
  omega

/-! ### Claim theorems -/

/-- C1: for every list of capability name strings that contains at least one
name not present in the static capability table (`firstUnknown names = some n`
picks out the first such name, wherever it sits in the list), `capsFromNames`
fails with an error identifying that name and returns the empty/zero
capability set — no partial result. -/
theorem C1_capsFromNames_unknown_aborts (names : List String) (n : String)
    (h : firstUnknown names = some n) :
    capsFromNames names = (CapabilitySet.empty, some (unknownCapMsg n)) :=
  capsFromNames_err h

/-- Witness for C1 at a concrete input: the unrecognized name sits in the
middle of the list and is the one identified. -/
theorem C1_capsFromNames_unknown_aborts_witness :
    firstUnknown ["CAP_CHOWN", "CAP_FROB", "CAP_QUUX"] = some "CAP_FROB" ∧
    capsFromNames ["CAP_CHOWN", "CAP_FROB", "CAP_QUUX"] =
      (CapabilitySet.empty, some (unknownCapMsg "CAP_FROB")) :=
  ⟨by decide, C1_capsFromNames_unknown_aborts _ "CAP_FROB" (by decide)⟩

/-- C2: `Capabilities` on an absent (nil) capability block returns a
`TaskCapabilities` whose four sets — Bounding, Effective, Permitted,
Inheritable — are all empty, and a nil error: no implicit privilege. -/
theorem C2_capabilities_absent :
    Capabilities none =
      (some { BoundingCaps := CapabilitySet.empty, EffectiveCaps := CapabilitySet.empty,
              PermittedCaps := CapabilitySet.empty, InheritableCaps := CapabilitySet.empty },
       none) := rfl

/-- C3: for every list of names all drawn from the static table,
`capsFromNames` succeeds, and the resulting set contains exactly the
capabilities of the listed names: membership holds for a capability iff some
listed name maps to it. -/
theorem C3_capsFromNames_valid (names : List String)
    (h : ∀ n ∈ names, (capFromName n).isSome) :
    (capsFromNames names).2 = none ∧
    ∀ c : Capability,
      CapabilitySet.contains (capsFromNames names).1 c = true ↔
        ∃ n ∈ names, capFromName n = some c := by
  have hf : firstUnknown names = none := (firstUnknown_eq_none_iff names).mpr h
  rw [capsFromNames_ok hf]
  refine ⟨rfl, fun c => ?_⟩
  rw [CapabilitySet.contains, testBit_ofMany, List.elem_iff, List.mem_filterMap]

/-- Witness for C3 at a concrete input: parsing succeeds and the membership
test for the capability of a listed name (CAP_KILL = 5) comes out true. -/
theorem C3_capsFromNames_valid_witness :
    (capsFromNames ["CAP_KILL", "CAP_NET_ADMIN"]).2 = none ∧
    (CapabilitySet.contains (capsFromNames ["CAP_KILL", "CAP_NET_ADMIN"]).1 5 = true ↔
      ∃ n ∈ ["CAP_KILL", "CAP_NET_ADMIN"], capFromName n = some 5) :=
  ⟨(C3_capsFromNames_valid _ (by decide)).1, (C3_capsFromNames_valid _ (by decide)).2 5⟩

/-- C4: whenever any of the four name lists of a capability block contains
an unknown name, `Capabilities` returns a nil `TaskCapabilities` together
with an error — never a partially-populated result. -/
theorem C4_capabilities_unknown_aborts (sc : LinuxCapabilities)
    (h : ∃ n, (n ∈ sc.Bounding ∨ n ∈ sc.Effective ∨ n ∈ sc.Inheritable ∨ n ∈ sc.Permitted) ∧
      capFromName n = none) :
    (Capabilities (some sc)).1 = none ∧ (Capabilities (some sc)).2 ≠ none := by
  obtain ⟨hmap, hiff⟩ := capabilities_shape sc
  have hlist : ∀ l : List String, ∀ n, n ∈ l → capFromName n = none →
      firstUnknown l ≠ none := by
    intro l n hl hn hcontra
    rw [firstUnknown_eq_none_iff] at hcontra
    have := hcontra n hl
    rw [hn] at this
    simp at this
  have h2 : (Capabilities (some sc)).2 ≠ none := by
    rw [hmap]
    intro hcontra
    rw [Option.map_eq_none'] at hcontra
    rw [firstSome_eq_none_iff, firstSome_eq_none_iff, firstSome_eq_none_iff] at hcontra
    obtain ⟨hB, hE, hI, hP⟩ := hcontra
    obtain ⟨n, hmem, hnone⟩ := h
    rcases hmem with hm | hm | hm | hm
    · exact hlist _ n hm hnone hB
    · exact hlist _ n hm hnone hE
    · exact hlist _ n hm hnone hI
    · exact hlist _ n hm hnone hP
  exact ⟨hiff.mpr h2, h2⟩

/-- Witness for C4 at a concrete block whose Effective list holds an unknown
name: the result is nil and the error non-nil. -/
theorem C4_capabilities_unknown_aborts_witness :
    (Capabilities (some ⟨["CAP_CHOWN"], ["CAP_NOPE"], [], [], []⟩)).1 = none ∧
    (Capabilities (some ⟨["CAP_CHOWN"], ["CAP_NOPE"], [], [], []⟩)).2 ≠ none :=
  C4_capabilities_unknown_aborts _ ⟨"CAP_NOPE", Or.inr (Or.inl (by decide)), by decide⟩

/-- C6: union and intersect on `CapabilitySet` are associative, commutative,
and idempotent; `intersect X X = X`; `union X empty = X`.  (They are Lean
functions on `CapabilitySet`, hence pure and total with no failure mode.) -/
theorem C6_capset_algebra (X Y Z : CapabilitySet) :
    CapabilitySet.union (CapabilitySet.union X Y) Z =
      CapabilitySet.union X (CapabilitySet.union Y Z) ∧
    CapabilitySet.union X Y = CapabilitySet.union Y X ∧
    CapabilitySet.union X X = X ∧
    CapabilitySet.intersect (CapabilitySet.intersect X Y) Z =
      CapabilitySet.intersect X (CapabilitySet.intersect Y Z) ∧
    CapabilitySet.intersect X Y = CapabilitySet.intersect Y X ∧
    CapabilitySet.intersect X X = X ∧
    CapabilitySet.union X CapabilitySet.empty = X :=
  ⟨Nat.lor_assoc X Y Z, Nat.lor_comm X Y, Nat.or_self X, Nat.land_assoc X Y Z,
   Nat.land_comm X Y, Nat.and_self X, Nat.or_zero X⟩

/-- C7: the static capability table has exactly 38 entries, every name is of
the form `CAP_*`, and the mapping is injective: distinct names map to
distinct capability values, so each capability has one canonical name. -/
theorem C7_capTable_injective :
    capTable.length = 38 ∧
    (∀ p ∈ capTable, p.1.toList.take 4 = "CAP_".toList) ∧
    (∀ n1 n2 : String, ∀ c : Capability,
      capFromName n1 = some c → capFromName n2 = some c → n1 = n2) := by
  refine ⟨by decide, by decide, ?_⟩
  intro n1 n2 c h1 h2
  have key : ∀ p ∈ capTable, ∀ q ∈ capTable, p.2 = q.2 → p.1 = q.1 := by decide
  have h1' : List.lookup n1 capTable = some c := h1
  have h2' : List.lookup n2 capTable = some c := h2
  exact key (n1, c) (mem_of_lookup h1') (n2, c) (mem_of_lookup h2') rfl

/-- Witness for C7: applying the injectivity part at the concrete name
CAP_KILL (ordinal 5). -/
theorem C7_capTable_injective_witness :
    capTable.length = 38 ∧ ("CAP_KILL" : String) = "CAP_KILL" :=
  ⟨C7_capTable_injective.1,
   C7_capTable_injective.2.2 "CAP_KILL" "CAP_KILL" 5 (by decide) (by decide)⟩

/-- C8: `Capabilities` evaluates the four lists in the fixed source order
Bounding, Effective, Inheritable, Permitted: its error is exactly the error
for the first unknown name of the earliest list that has one. -/
theorem C8_capabilities_order (sc : LinuxCapabilities) :
    (Capabilities (some sc)).2 =
      Option.map unknownCapMsg
        (firstSome (firstUnknown sc.Bounding)
          (firstSome (firstUnknown sc.Effective)
            (firstSome (firstUnknown sc.Inheritable) (firstUnknown sc.Permitted)))) :=
  (capabilities_shape sc).1

/-- C5: for the IdentityMap built from the single range pair
(local=[0,100), parent=[1000,1100)): translate 50 = (1050, true),
reverse_translate 1050 = (50, true), and translate 150 is not found; and in
general, on any map whose local ranges and parent ranges are non-overlapping
(the IdentityMap invariant), translate and reverse_translate are mutual
inverses on the covered ranges. -/
theorem C5_identity_map_round_trip :
    (auth.build [⟨0, 1000, 100⟩] = Except.ok [⟨0, 1000, 100⟩] ∧
     auth.translate [⟨0, 1000, 100⟩] 50 = (1050, true) ∧
     auth.reverse_translate [⟨0, 1000, 100⟩] 1050 = (50, true) ∧
     (auth.translate [⟨0, 1000, 100⟩] 150).2 = false) ∧
    ∀ m : auth.IdentityMap,
      (∀ a ∈ m, ∀ b ∈ m, ∀ x : Nat,
        a.FirstID ≤ x → x < a.FirstID + a.Length →
        b.FirstID ≤ x → x < b.FirstID + b.Length → a = b) →
      (∀ a ∈ m, ∀ b ∈ m, ∀ x : Nat,
        a.FirstParentID ≤ x → x < a.FirstParentID + a.Length →
        b.FirstParentID ≤ x → x < b.FirstParentID + b.Length → a = b) →
      (∀ id p, auth.translate m id = (p, true) →
        auth.reverse_translate m p = (id, true)) ∧
      (∀ p id, auth.reverse_translate m p = (id, true) →
        auth.translate m id = (p, true)) := by
  refine ⟨⟨rfl, by decide, by decide, by decide⟩, fun m hL hP => ?_⟩
  exact ⟨auth.translate_reverse m hP, auth.reverse_translate_translate m hL⟩

/-- Witness for C5: the general round-trip part applied to the concrete
single-range map at 50 ↦ 1050. -/
theorem C5_identity_map_round_trip_witness :
    auth.reverse_translate [⟨0, 1000, 100⟩] 1050 = (50, true) :=
  (C5_identity_map_round_trip.2 [⟨0, 1000, 100⟩]
      (by
        intro a ha b hb x h1 h2 h3 h4
        rw [List.mem_singleton] at ha hb
        rw [ha, hb])
      (by
        intro a ha b hb x h1 h2 h3 h4
        rw [List.mem_singleton] at ha hb
        rw [ha, hb])).1 50 1050 (by decide)

/-- C9 counterexample: at UserTime = 2^57 + 1 ns (SysTime 0, start 0, now 1)
the int64 product `total * 100` overflows; the wrapped quotient is negative,
escapes the `> 99` cap, and its int32 truncation is 100 — outside [0, 99]. -/
theorem C9_percentCPU_counterexample :
    percentCPU ⟨2 ^ 57 + 1, 0⟩ 0 1 = 100 ∧
    ¬ (0 ≤ percentCPU ⟨2 ^ 57 + 1, 0⟩ 0 1 ∧ percentCPU ⟨2 ^ 57 + 1, 0⟩ 0 1 ≤ 99) :=
  ⟨by decide, by decide⟩

/-- C9 (amended): for every CPUStats whose UserTime and SysTime are
non-negative and whose `total * 100` does not overflow int64, `percentCPU`
returns an integer in [0, 99]; and, unconditionally on those bounds, it
returns 0 whenever the computed lifetime (now minus start) is non-positive,
so the division by lifetime is never performed with a non-positive divisor,
and any quotient greater than 99 is capped at 99. -/
theorem C9_percentCPU_range (stats : CPUStats) (startTime now : Int)
    (hU : 0 ≤ stats.UserTime) (hS : 0 ≤ stats.SysTime)
    (hOv : (stats.UserTime + stats.SysTime) * 100 < 2 ^ 63) :
    (0 ≤ percentCPU stats startTime now ∧ percentCPU stats startTime now ≤ 99) ∧
    (timeSub now startTime ≤ 0 → percentCPU stats startTime now = 0) := by
  have hpow : (0 : Int) ≤ 2 ^ 63 := by positivity
  have hT0 : 0 ≤ stats.UserTime + stats.SysTime := add_nonneg hU hS
  have hT100 : 0 ≤ (stats.UserTime + stats.SysTime) * 100 := by positivity
  have hT1 : stats.UserTime + stats.SysTime ≤ (stats.UserTime + stats.SysTime) * 100 :=
    le_mul_of_one_le_right hT0 (by norm_num)
  have hTlt : stats.UserTime + stats.SysTime < 2 ^ 63 := by linarith
  have htot : wrap64 (stats.UserTime + stats.SysTime) = stats.UserTime + stats.SysTime :=
    wrap64_eq_self (by linarith) hTlt
  have hd : wrap64 ((stats.UserTime + stats.SysTime) * 100) =
      (stats.UserTime + stats.SysTime) * 100 :=
    wrap64_eq_self (by linarith) hOv
  by_cases hlt : timeSub now startTime ≤ 0
  · have hzero : percentCPU stats startTime now = 0 := by simp [percentCPU, hlt]
    exact ⟨⟨by simp [hzero], by simp [hzero]⟩, fun _ => hzero⟩
  · have hltpos : 0 < timeSub now startTime := not_le.mp hlt
    set q := Int.tdiv ((stats.UserTime + stats.SysTime) * 100) (timeSub now startTime)
      with hqdef
    have hq0 : 0 ≤ q := Int.tdiv_nonneg hT100 (le_of_lt hltpos)
    have hqle : q ≤ (stats.UserTime + stats.SysTime) * 100 := by
      rw [hqdef, Int.tdiv_eq_ediv hT100 (le_of_lt hltpos)]
      exact Int.ediv_le_self _ hT100
    have hqlt : q < 2 ^ 63 := lt_of_le_of_lt hqle hOv
    have hwq : wrap64 q = q := wrap64_eq_self (by linarith) hqlt
    have hpc : percentCPU stats startTime now = wrap32 (if q > 99 then 99 else q) := by
      simp only [percentCPU]
      rw [if_neg hlt, htot, hd, ← hqdef, hwq]
    have h31 : (99 : Int) < 2 ^ 31 := by norm_num
    have h310 : (0 : Int) ≤ 2 ^ 31 := by positivity
    by_cases hq99 : q > 99
    · rw [hpc, if_pos hq99, wrap32_eq_self (by norm_num) (by norm_num)]
      exact ⟨⟨by norm_num, le_refl _⟩, fun h0 => absurd h0 hlt⟩
    · rw [hpc, if_neg hq99, wrap32_eq_self (by linarith) (by linarith [not_lt.mp hq99])]
      exact ⟨⟨hq0, not_lt.mp hq99⟩, fun h0 => absurd h0 hlt⟩

/-- Witness for C9 (amended) at a concrete small input: 4 μs of CPU over a
1 ms lifetime gives a value in range, and the lifetime guard applies. -/
theorem C9_percentCPU_range_witness :
    (0 ≤ percentCPU ⟨3000, 1000⟩ 0 1000000 ∧ percentCPU ⟨3000, 1000⟩ 0 1000000 ≤ 99) ∧
    (timeSub 1000000 0 ≤ 0 → percentCPU ⟨3000, 1000⟩ 0 1000000 = 0) :=
  C9_percentCPU_range ⟨3000, 1000⟩ 0 1000000 (by norm_num) (by norm_num) (by norm_num)

/-- C10 counterexample: the claim says a name containing `'/'` is returned
cleaned, and a failed lookup returns the original name; but for `"./foo"`
(which contains `'/'`) with a PATH hit, the code returns the joined PATH
result `"/bin/foo"`, which is neither the cleaned `"foo"` nor the original
`"./foo"` — the `'/'` test runs on the cleaned name, not the original. -/
theorem C10_getExecutablePath_counterexample :
    "./foo".toList.contains '/' = true ∧
    GetExecutablePath "./foo" "/r" ["PATH=/bin"] (fun _ => true) = ("/bin/foo", none) ∧
    Clean "./foo" = "foo" ∧
    ("/bin/foo" : String) ≠ "foo" ∧ ("/bin/foo" : String) ≠ "./foo" :=
  ⟨by decide, by decide, by decide, by decide, by decide⟩

/-- C10 (amended): `GetExecutablePath` returns a nil error for every input;
the name is first cleaned (`filepath.Clean`); if the cleaned name contains a
`'/'` the cleaned name is returned unchanged; and if the cleaned name has no
`'/'` and no matching file is found on any PATH entry, the cleaned name is
returned rather than an error — lookup failure is never reported through the
error return value. -/
theorem C10_getExecutablePath_spec (exec root : String) (env : List String)
    (stat : String → Bool) :
    (GetExecutablePath exec root env stat).2 = none ∧
    ((cleanChars exec.toList).contains '/' = true →
      (GetExecutablePath exec root env stat).1 = Clean exec) ∧
    ((cleanChars exec.toList).contains '/' = false →
      (pathFromEnv env).find?
        (fun p => stat (String.mk (JoinCh [root.toList, p, cleanChars exec.toList]))) = none →
      (GetExecutablePath exec root env stat).1 = Clean exec) := by
  refine ⟨?_, fun hc => ?_, fun hc hf => ?_⟩
  · by_cases hc : '/' ∈ cleanChars exec.toList
    · simp only [String.toList] at hc
      simp [GetExecutablePath, hc]
    · simp only [String.toList] at hc
      cases hf : (pathFromEnv env).find?
          (fun p => stat (String.mk (JoinCh [root.toList, p, cleanChars exec.toList]))) with
      | none => simp only [String.toList] at hf; simp [GetExecutablePath, hc, hf]
      | some p => simp only [String.toList] at hf; simp [GetExecutablePath, hc, hf]
  · have hc2 : '/' ∈ cleanChars exec.data := by simpa [String.toList] using hc
    simp [GetExecutablePath, Clean, hc2]
  · have hc2 : '/' ∉ cleanChars exec.data := by simpa [String.toList] using hc
    simp only [String.toList] at hf
    simp [GetExecutablePath, Clean, hc2, hf]

/-- Witness for C10 (amended): a plain name, empty environment, and a stat
oracle that never finds a file. -/
theorem C10_getExecutablePath_spec_witness :
    (GetExecutablePath "ls" "/r" [] (fun _ => false)).2 = none ∧
    (GetExecutablePath "ls" "/r" [] (fun _ => false)).1 = Clean "ls" :=
  ⟨(C10_getExecutablePath_spec "ls" "/r" [] (fun _ => false)).1,
   (C10_getExecutablePath_spec "ls" "/r" [] (fun _ => false)).2.2 (by decide) (by decide)⟩
